import Mathlib

/-!
Shallow embedding of the core of the `subnetcalc` repository
(`src/routes.rs`, `src/subnet.rs`, `src/utils.rs`) and proofs about it.

Machine integers (`u32`) are modelled as `Nat` with explicit reductions
modulo `2 ^ 32`.  Rust's checked arithmetic (debug builds: overflowing
`+`/`-`/`<<`/`pow` panics) is modelled by returning `Option`: `none`
stands for an arithmetic-overflow panic.  Fallible Rust functions that
return `Result<_, RouteError>` are modelled with `Except`.
-/

namespace Subnetcalc

/-- The `u32` modulus, `2 ^ 32`. -/
def u32Mod : Nat := 4294967296

/-- `u32::MAX`, that is `2 ^ 32 - 1` (the value of `!0u32`). -/
def u32Max : Nat := 4294967295

/-- `RouteError` from `src/errors.rs` (identical to `NetworkError` in
`src/subnet.rs`). -/
inductive RouteError where
  | InvalidIpFormat
  | InvalidMaskFormat
  | EmptyNetworkList
  | InvalidHostsOrSubnets
  | InsufficientBits
  deriving DecidableEq

/-- `Route` from `src/routes.rs` (structurally identical to `Network` in
`src/subnet.rs`): an IPv4 address held as its `u32` value together with a
CIDR prefix length.  The source field named after the CIDR length is
called `pfx` here. -/
structure Route where
  ip : Nat
  pfx : Nat
  deriving DecidableEq

instance : DecidableEq (Except RouteError Route) := fun a b =>
  match a, b with
  | .ok x, .ok y => if h : x = y then .isTrue (by rw [h]) else .isFalse (by simp [h])
  | .error x, .error y => if h : x = y then .isTrue (by rw [h]) else .isFalse (by simp [h])
  | .ok _, .error _ => .isFalse (by simp)
  | .error _, .ok _ => .isFalse (by simp)

instance : DecidableEq (Except RouteError Nat) := fun a b =>
  match a, b with
  | .ok x, .ok y => if h : x = y then .isTrue (by rw [h]) else .isFalse (by simp [h])
  | .error x, .error y => if h : x = y then .isTrue (by rw [h]) else .isFalse (by simp [h])
  | .ok _, .error _ => .isFalse (by simp)
  | .error _, .ok _ => .isFalse (by simp)

/-- `utils::subnet_mask`: `!0 << (32 - bits)` on `u32`.  `none` models the
debug-build panic: for `bits > 32` the `u32` subtraction `32 - bits`
underflows, and for `bits = 0` the shift amount is 32, which is the full
bit width. -/
def subnet_mask (bits : Nat) : Option Nat :=
  if 32 < bits then none
  else if bits = 0 then none
  else some ((u32Max <<< (32 - bits)) % u32Mod)

/-- `Network::mask_to_u32` from `src/subnet.rs`; its body is identical to
`utils::subnet_mask`. -/
def mask_to_u32 (bits : Nat) : Option Nat :=
  if 32 < bits then none
  else if bits = 0 then none
  else some ((u32Max <<< (32 - bits)) % u32Mod)

/-- Modelled from the spec: `maskForPrefix(p)`, the 32-bit value whose top
`p` bits are set and whose remaining bits are clear; `p = 0` gives the
all-zero value and `p = 32` the all-ones value.  (The spec demands an
explicit special case at the boundary; the source has none.) -/
def maskForPrefix (p : Nat) : Nat := u32Mod - 2 ^ (32 - p)

/-- Modelled from the spec: `popcount`, the number of set bits.  Fuel-based
so that it evaluates inside the kernel; 40 levels cover every value below
`2 ^ 40`, far above the `u32` range used here. -/
def popcountAux : Nat → Nat → Nat
  | 0, _ => 0
  | fuel + 1, n => if n = 0 then 0 else n % 2 + popcountAux fuel (n / 2)

/-- Modelled from the spec: `popcount` of a `u32` value. -/
def popcount (n : Nat) : Nat := popcountAux 40 n

/-- `utils::default_mask` (identical to `Network::default_mask`): the
classful default prefix chosen from the first octet of the address. -/
def default_mask (ip : Nat) : Nat :=
  let o := ip / 16777216 % 256
  if o ≤ 127 then 8
  else if o ≤ 191 then 16
  else if o ≤ 223 then 24
  else 24

/-- `Route::available_hosts`: `2u32.pow(32 - prefix) - 2`.  `none` models
the debug-build panics: `32 - prefix` underflows for a prefix above 32,
`2 ^ 32` overflows `u32` at prefix 0, and `1 - 2` underflows at
prefix 32. -/
def available_hosts (r : Route) : Option Nat :=
  if 32 < r.pfx then none
  else if u32Mod ≤ 2 ^ (32 - r.pfx) then none
  else if 2 ^ (32 - r.pfx) < 2 then none
  else some (2 ^ (32 - r.pfx) - 2)

/-! ### CIDR parsing (`Route::from_str` / `Network::from_str`)

Strings are modelled as `List Char`.  The helpers below embed the pieces
of the Rust standard library that `from_str` relies on:
`str::split_once`, `u32::from_str` and `Ipv4Addr::from_str`. -/

/-- ASCII decimal digit test. -/
def isDigit (c : Char) : Bool := 48 ≤ c.toNat && c.toNat ≤ 57

/-- Numeric value of an ASCII digit. -/
def digitVal (c : Char) : Nat := c.toNat - 48

/-- Value of a string of decimal digits (most significant first). -/
def digitsToNat (l : List Char) : Nat := l.foldl (fun a c => a * 10 + digitVal c) 0

/-- Rust `u32::from_str`: an optional leading plus sign, then one or more
ASCII digits, whose value must fit in a `u32`. -/
def parse_u32 (s : List Char) : Option Nat :=
  let t := match s with
    | c :: rest => if c = '+' then rest else s
    | [] => s
  if t.isEmpty then none
  else if t.all isDigit then
    if digitsToNat t < u32Mod then some (digitsToNat t) else none
  else none

/-- One octet group of Rust `Ipv4Addr::from_str`: decimal digits with no
sign, no leading zero (unless the group is exactly "0"), value at
most 255.  (Rust reads at most three digits per group; a longer digit
group without a leading zero has value at least 1000 and is equally
rejected by the value bound.) -/
def parse_octet (s : List Char) : Option Nat :=
  if s.isEmpty then none
  else if s.all isDigit then
    if 2 ≤ s.length ∧ s.head? = some '0' then none
    else if digitsToNat s ≤ 255 then some (digitsToNat s) else none
  else none

/-- Rust `str::split_once`: split at the first occurrence of `c`; `none`
when `c` does not occur. -/
def splitOnce (c : Char) : List Char → Option (List Char × List Char)
  | [] => none
  | x :: xs =>
    if x = c then some ([], xs)
    else
      match splitOnce c xs with
      | some (a, b) => some (x :: a, b)
      | none => none

/-- Split at every occurrence of `c` (the grouping performed by Rust
`str::split` / the dotted-quad scanner). -/
def splitAll (c : Char) : List Char → List (List Char)
  | [] => [[]]
  | x :: xs =>
    if x = c then [] :: splitAll c xs
    else
      match splitAll c xs with
      | [] => [[x]]
      | h :: t => (x :: h) :: t

/-- Rust `Ipv4Addr::from_str`: exactly four dot-separated octet groups;
the result is the address as its `u32` value
`a * 2^24 + b * 2^16 + c * 2^8 + d`. -/
def ipv4_from_str (s : List Char) : Option Nat :=
  match (splitAll '.' s).mapM parse_octet with
  | some [a, b, c, d] => some (a * 16777216 + b * 65536 + c * 256 + d)
  | _ => none

/-- `Route::from_str` (identical logic in `Network::from_str`): split at
the first slash (whole string and empty mask part when there is none),
parse the address part, then either apply the classful default mask or
parse the mask part as a `u32`. -/
def from_str (s : List Char) : Except RouteError Route :=
  let p := (splitOnce '/' s).getD (s, [])
  match ipv4_from_str p.1 with
  | none => .error .InvalidIpFormat
  | some ip =>
    if p.2.isEmpty then .ok ⟨ip, default_mask ip⟩
    else
      match parse_u32 p.2 with
      | none => .error .InvalidMaskFormat
      | some m => .ok ⟨ip, m⟩

/-! ### Display (`impl Display for Route`) -/

/-- The ASCII character of a decimal digit. -/
def digitChar : Nat → Char
  | 0 => '0'
  | 1 => '1'
  | 2 => '2'
  | 3 => '3'
  | 4 => '4'
  | 5 => '5'
  | 6 => '6'
  | 7 => '7'
  | 8 => '8'
  | _ => '9'

/-- Decimal rendering of a natural number, fuel-based so that it reduces
inside the kernel.  Ten digits of fuel cover every value below `10^10`,
which includes the whole `u32` range. -/
def natToCharsAux : Nat → Nat → List Char
  | 0, _ => []
  | fuel + 1, n =>
    if n < 10 then [digitChar n]
    else natToCharsAux fuel (n / 10) ++ [digitChar (n % 10)]

/-- Decimal rendering of a `u32` value (Rust `Display` for `u32`). -/
def natToChars (n : Nat) : List Char := natToCharsAux 10 n

/-- Rust `Display` for `Ipv4Addr`: the four octets in decimal, separated
by dots. -/
def ipChars (ip : Nat) : List Char :=
  natToChars (ip / 16777216 % 256) ++
    ('.' :: (natToChars (ip / 65536 % 256) ++
      ('.' :: (natToChars (ip / 256 % 256) ++
        ('.' :: natToChars (ip % 256))))))

/-- `impl Display for Route`: `"{ip}/{prefix}"`. -/
def route_display (r : Route) : List Char := ipChars r.ip ++ '/' :: natToChars r.pfx

/-- Statement-side helper: the text `"A.B.C.D"` built from four octet
values (the input format the parser claims quantify over). -/
def ipv4Chars (a b c d : Nat) : List Char :=
  natToChars a ++
    ('.' :: (natToChars b ++ ('.' :: (natToChars c ++ ('.' :: natToChars d)))))

/-- Statement-side helper: the `u32` value of the address with octets
`a.b.c.d`. -/
def ofOctets (a b c d : Nat) : Nat := a * 16777216 + b * 65536 + c * 256 + d

/-! ### Aggregation (`aggregate_routes` / `Network::aggregate_networks`) -/

/-- The fold of `routes.rs` that ANDs together every masked input address
(source name ends in "common" followed by the CIDR-length word): each
address is masked with its own prefix mask and the results are folded
with bitwise AND starting from `u32::MAX`.  `none` models the debug-build
panic inside `mask_to_u32` for a prefix of 0 or above 32. -/
def find_common_pfx (routes : List Route) : Option Nat :=
  routes.foldlM (fun acc r => (mask_to_u32 r.pfx).map (fun m => acc &&& (r.ip &&& m))) u32Max

/-- `count_common_bits`: scan bit positions 31 down to 0 of the raw
addresses, counting how many leading positions agree with the first
route, then clamp by the maximum input prefix length.  (The source
indexes `routes[0]` and unwraps the maximum; callers guarantee a
non-empty list, and the empty case is unreachable.) -/
def count_common_bits (routes : List Route) : Nat :=
  match routes with
  | [] => 0
  | r0 :: _ =>
    let first_ip := r0.ip
    let maxLen := (routes.map Route.pfx).foldl max 0
    let cnt := ((List.range 32).reverse.takeWhile (fun i =>
      routes.all (fun rt => (first_ip &&& (1 <<< i)) == (rt.ip &&& (1 <<< i))))).length
    min cnt maxLen

/-- `aggregate_routes` (identical logic in `Network::aggregate_networks`).
`none` models a debug-build shift-overflow panic in `mask_to_u32`, which
happens when some input prefix is 0 or above 32, or when the computed
common-bit count is 0. -/
def aggregate_routes (routes : List Route) : Option (Except RouteError Route) :=
  match routes with
  | [] => some (.error .EmptyNetworkList)
  | [r] => some (.ok r)
  | _ =>
    match find_common_pfx routes with
    | none => none
    | some fcp =>
      let cb := count_common_bits routes
      match mask_to_u32 cb with
      | none => none
      | some nm => some (.ok ⟨fcp &&& nm, cb⟩)

/-! ### Mask solver (`determine_subnet_mask`) -/

/-- Floor of the base-2 logarithm, fuel-based so that it reduces inside
the kernel; 32 levels of fuel cover the whole `u32` range. -/
def log2floorAux : Nat → Nat → Nat
  | 0, _ => 0
  | fuel + 1, n => if n ≤ 1 then 0 else log2floorAux fuel (n / 2) + 1

/-- `u32::leading_zeros`. -/
def u32_leading_zeros (n : Nat) : Nat :=
  if n = 0 then 32 else 31 - log2floorAux 32 n

/-- Helper for `u32::trailing_zeros`, fuel-based. -/
def u32_trailing_zeros_aux : Nat → Nat → Nat
  | 0, _ => 0
  | fuel + 1, n => if n % 2 = 1 then 0 else u32_trailing_zeros_aux fuel (n / 2) + 1

/-- `u32::trailing_zeros` (32 for the value 0). -/
def u32_trailing_zeros (n : Nat) : Nat :=
  if n = 0 then 32 else u32_trailing_zeros_aux 32 n

/-- `u32::next_power_of_two`: `(u32::MAX >> leading_zeros(n - 1)) + 1` for
`n ≥ 2`, and 1 for `n ≤ 1`.  `none` models the debug-build panic of the
final `+ 1` when the result would exceed `u32::MAX`, which happens
exactly for `n > 2^31`. -/
def next_power_of_two (n : Nat) : Option Nat :=
  let m := if n ≤ 1 then 0 else u32Max >>> u32_leading_zeros (n - 1)
  if m = u32Max then none else some (m + 1)

/-- `determine_subnet_mask` (identical logic in
`Network::determine_subnet_mask`).  The outer `Option` models the
debug-build panics: the `u32` addition `required_hosts + 2` can overflow,
`next_power_of_two` can overflow, and the subtraction `32 - mask`
underflows when `mask > 32` (it is only evaluated when the first guard
`mask < host_bits` is false, mirroring Rust's short-circuit `||`). -/
def determine_subnet_mask (mask required_subnets required_hosts : Nat) :
    Option (Except RouteError Nat) :=
  if required_hosts = 0 ∨ required_subnets = 0 then
    some (.error .InvalidHostsOrSubnets)
  else if u32Mod ≤ required_hosts + 2 then none
  else
    match next_power_of_two (required_hosts + 2) with
    | none => none
    | some hp =>
      let host_bits := u32_trailing_zeros hp
      match next_power_of_two required_subnets with
      | none => none
      | some sp =>
        let subnet_bits := u32_trailing_zeros sp
        if mask < host_bits then some (.error .InsufficientBits)
        else if 32 < mask then none
        else if 32 - mask < subnet_bits then some (.error .InsufficientBits)
        else
          match mask_to_u32 (mask + subnet_bits) with
          | none => none
          | some nm => some (.ok nm)

/-! ### Helper lemmas: masks -/

theorem mask_to_u32_eq_subnet_mask (b : Nat) : mask_to_u32 b = subnet_mask b := rfl

theorem subnet_mask_eq (b : Nat) (h1 : 1 ≤ b) (h2 : b ≤ 32) :
    subnet_mask b = some (maskForPrefix b) := by
  have hx1 : (1 : Nat) ≤ 2 ^ (32 - b) := Nat.one_le_two_pow
  have hx2 : 2 ^ (32 - b) ≤ 2 ^ 31 := Nat.pow_le_pow_right (by norm_num) (by omega)
  unfold subnet_mask maskForPrefix u32Max u32Mod
  rw [if_neg (by omega), if_neg (by omega), Nat.shiftLeft_eq]
  norm_num at hx2 ⊢
  omega

theorem subnet_mask_eq_none_iff (b : Nat) :
    subnet_mask b = none ↔ (b = 0 ∨ 32 < b) := by
  unfold subnet_mask
  by_cases h1 : 32 < b
  · simp [h1]
  · by_cases h0 : b = 0 <;> simp [h1, h0]

theorem mask_to_u32_some_inv (b v : Nat) (h : mask_to_u32 b = some v) :
    1 ≤ b ∧ b ≤ 32 ∧ v = maskForPrefix b := by
  rw [mask_to_u32_eq_subnet_mask] at h
  have hrange : ¬(b = 0 ∨ 32 < b) := by
    intro hc
    rw [(subnet_mask_eq_none_iff b).2 hc] at h
    exact Option.noConfusion h
  push_neg at hrange
  obtain ⟨h0, h32⟩ := hrange
  refine ⟨by omega, by omega, ?_⟩
  rw [subnet_mask_eq b (by omega) (by omega)] at h
  exact (Option.some_inj.1 h).symm

theorem maskForPrefix_lt (p : Nat) : maskForPrefix p < u32Mod := by
  have : (1 : Nat) ≤ 2 ^ (32 - p) := Nat.one_le_two_pow
  unfold maskForPrefix u32Mod
  omega

/-! ### Helper lemmas: decimal digits and rendering -/

theorem digitVal_digitChar (d : Nat) (h : d ≤ 9) : digitVal (digitChar d) = d := by
  interval_cases d <;> rfl

theorem isDigit_digitChar (d : Nat) (h : d ≤ 9) : isDigit (digitChar d) = true := by
  interval_cases d <;> rfl

theorem isDigit_ne_dot (c : Char) (h : isDigit c = true) : c ≠ '.' := by
  intro hc
  subst hc
  exact absurd h (by decide)

theorem isDigit_ne_slash (c : Char) (h : isDigit c = true) : c ≠ '/' := by
  intro hc
  subst hc
  exact absurd h (by decide)

theorem isDigit_ne_plus (c : Char) (h : isDigit c = true) : c ≠ '+' := by
  intro hc
  subst hc
  exact absurd h (by decide)

theorem digitsToNat_append_singleton (l : List Char) (c : Char) :
    digitsToNat (l ++ [c]) = digitsToNat l * 10 + digitVal c := by
  unfold digitsToNat
  rw [List.foldl_append]
  rfl

theorem natToCharsAux_spec (fuel : Nat) :
    ∀ n, n < 10 ^ (fuel + 1) →
      natToCharsAux (fuel + 1) n ≠ [] ∧
        (natToCharsAux (fuel + 1) n).all isDigit = true ∧
          digitsToNat (natToCharsAux (fuel + 1) n) = n := by
  induction fuel with
  | zero =>
    intro n hn
    have h10 : n < 10 := by norm_num at hn; exact hn
    unfold natToCharsAux
    rw [if_pos h10]
    refine ⟨by simp, ?_, ?_⟩
    · simp [List.all_cons, isDigit_digitChar n (by omega)]
    · show digitsToNat [digitChar n] = n
      unfold digitsToNat
      simp [List.foldl_cons, digitVal_digitChar n (by omega)]
  | succ fuel ih =>
    intro n hn
    by_cases h10 : n < 10
    · unfold natToCharsAux
      rw [if_pos h10]
      refine ⟨by simp, ?_, ?_⟩
      · simp [List.all_cons, isDigit_digitChar n (by omega)]
      · show digitsToNat [digitChar n] = n
        unfold digitsToNat
        simp [List.foldl_cons, digitVal_digitChar n (by omega)]
    · have hdiv : n / 10 < 10 ^ (fuel + 1) := by
        rw [Nat.div_lt_iff_lt_mul (by norm_num)]
        calc n < 10 ^ (fuel + 1 + 1) := hn
        _ = 10 ^ (fuel + 1) * 10 := by ring
      obtain ⟨hne, hall, hval⟩ := ih (n / 10) hdiv
      have hstep : natToCharsAux (fuel + 1 + 1) n =
          natToCharsAux (fuel + 1) (n / 10) ++ [digitChar (n % 10)] := by
        conv_lhs => unfold natToCharsAux
        rw [if_neg h10]
      rw [hstep]
      refine ⟨by simp, ?_, ?_⟩
      · rw [List.all_append, hall]
        simp [List.all_cons, isDigit_digitChar (n % 10) (by omega)]
      · rw [digitsToNat_append_singleton, hval, digitVal_digitChar (n % 10) (by omega)]
        omega

theorem natToChars_spec (n : Nat) (hn : n < 10000000000) :
    natToChars n ≠ [] ∧ (natToChars n).all isDigit = true ∧
      digitsToNat (natToChars n) = n :=
  natToCharsAux_spec 9 n (by norm_num; omega)

theorem natToChars_mem_isDigit (n : Nat) (hn : n < 10000000000) (c : Char)
    (hc : c ∈ natToChars n) : isDigit c = true :=
  (List.all_eq_true.1 (natToChars_spec n hn).2.1) c hc

/-! ### Helper lemmas: parsing round-trips -/

theorem parse_u32_natToChars (n : Nat) (hn : n < u32Mod) :
    parse_u32 (natToChars n) = some n := by
  have hbound : n < 10000000000 := by unfold u32Mod at hn; omega
  obtain ⟨hne, hall, hval⟩ := natToChars_spec n hbound
  unfold parse_u32
  obtain ⟨c, cs, hcons⟩ : ∃ c cs, natToChars n = c :: cs := by
    cases hmt : natToChars n with
    | nil => exact absurd hmt hne
    | cons c cs => exact ⟨c, cs, rfl⟩
  have hcdig : isDigit c = true :=
    natToChars_mem_isDigit n hbound c (by rw [hcons]; exact List.mem_cons_self c cs)
  rw [hcons]
  simp only [if_neg (isDigit_ne_plus c hcdig)]
  rw [← hcons]
  have hnotempty : (natToChars n).isEmpty = false := by
    rw [hcons]; rfl
  rw [hnotempty, hall, hval]
  simp [hn]

set_option maxRecDepth 100000 in
theorem parse_octet_fin : ∀ x : Fin 256, parse_octet (natToChars x.val) = some x.val := by
  decide

theorem parse_octet_natToChars (n : Nat) (hn : n ≤ 255) :
    parse_octet (natToChars n) = some n :=
  parse_octet_fin ⟨n, by omega⟩

/-! ### Helper lemmas: splitting -/

theorem splitOnce_not_mem (c : Char) (l : List Char) (h : c ∉ l) :
    splitOnce c l = none := by
  induction l with
  | nil => rfl
  | cons x xs ih =>
    have hx : x ≠ c := fun hc => h (hc ▸ List.mem_cons_self x xs)
    have hxs : c ∉ xs := fun hc => h (List.mem_cons_of_mem x hc)
    unfold splitOnce
    rw [if_neg (fun hc => hx hc), ih hxs]

theorem splitOnce_append (c : Char) (l r : List Char) (h : c ∉ l) :
    splitOnce c (l ++ c :: r) = some (l, r) := by
  induction l with
  | nil => simp [splitOnce]
  | cons x xs ih =>
    have hx : x ≠ c := fun hc => h (hc ▸ List.mem_cons_self x xs)
    have hxs : c ∉ xs := fun hc => h (List.mem_cons_of_mem x hc)
    show splitOnce c (x :: (xs ++ c :: r)) = some (x :: xs, r)
    unfold splitOnce
    rw [if_neg (fun hc => hx hc), ih hxs]

theorem splitAll_not_mem (c : Char) (l : List Char) (h : c ∉ l) :
    splitAll c l = [l] := by
  induction l with
  | nil => rfl
  | cons x xs ih =>
    have hx : x ≠ c := fun hc => h (hc ▸ List.mem_cons_self x xs)
    have hxs : c ∉ xs := fun hc => h (List.mem_cons_of_mem x hc)
    unfold splitAll
    rw [if_neg (fun hc => hx hc), ih hxs]

theorem splitAll_append (c : Char) (l r : List Char) (h : c ∉ l) :
    splitAll c (l ++ c :: r) = l :: splitAll c r := by
  induction l with
  | nil => simp [splitAll]
  | cons x xs ih =>
    have hx : x ≠ c := fun hc => h (hc ▸ List.mem_cons_self x xs)
    have hxs : c ∉ xs := fun hc => h (List.mem_cons_of_mem x hc)
    show splitAll c (x :: (xs ++ c :: r)) = (x :: xs) :: splitAll c r
    conv_lhs => unfold splitAll
    rw [if_neg (fun hc => hx hc), ih hxs]

theorem dot_not_mem_natToChars (n : Nat) (hn : n < 10000000000) :
    '.' ∉ natToChars n := by
  intro hmem
  exact isDigit_ne_dot _ (natToChars_mem_isDigit n hn _ hmem) rfl

theorem slash_not_mem_natToChars (n : Nat) (hn : n < 10000000000) :
    '/' ∉ natToChars n := by
  intro hmem
  exact isDigit_ne_slash _ (natToChars_mem_isDigit n hn _ hmem) rfl

theorem slash_not_mem_ipv4Chars (a b c d : Nat) (ha : a ≤ 255) (hb : b ≤ 255)
    (hc : c ≤ 255) (hd : d ≤ 255) : '/' ∉ ipv4Chars a b c d := by
  unfold ipv4Chars
  intro hmem
  have hne : ('/' : Char) ≠ '.' := by decide
  rcases List.mem_append.1 hmem with h1 | h1
  · exact slash_not_mem_natToChars a (by omega) h1
  rcases List.mem_cons.1 h1 with h2 | h2
  · exact hne h2
  rcases List.mem_append.1 h2 with h3 | h3
  · exact slash_not_mem_natToChars b (by omega) h3
  rcases List.mem_cons.1 h3 with h4 | h4
  · exact hne h4
  rcases List.mem_append.1 h4 with h5 | h5
  · exact slash_not_mem_natToChars c (by omega) h5
  rcases List.mem_cons.1 h5 with h6 | h6
  · exact hne h6
  · exact slash_not_mem_natToChars d (by omega) h6

theorem ipv4_from_str_ipv4Chars (a b c d : Nat) (ha : a ≤ 255) (hb : b ≤ 255)
    (hc : c ≤ 255) (hd : d ≤ 255) :
    ipv4_from_str (ipv4Chars a b c d) = some (ofOctets a b c d) := by
  have hsplit : splitAll '.' (ipv4Chars a b c d) =
      [natToChars a, natToChars b, natToChars c, natToChars d] := by
    unfold ipv4Chars
    rw [splitAll_append '.' _ _ (dot_not_mem_natToChars a (by omega)),
      splitAll_append '.' _ _ (dot_not_mem_natToChars b (by omega)),
      splitAll_append '.' _ _ (dot_not_mem_natToChars c (by omega)),
      splitAll_not_mem '.' _ (dot_not_mem_natToChars d (by omega))]
  unfold ipv4_from_str
  rw [hsplit]
  simp only [List.mapM_cons, List.mapM_nil,
    parse_octet_natToChars a ha, parse_octet_natToChars b hb,
    parse_octet_natToChars c hc, parse_octet_natToChars d hd]
  rfl

/-! ### Helper lemmas: `from_str` -/

theorem from_str_with_mask (a b c d : Nat) (p : List Char) (ha : a ≤ 255)
    (hb : b ≤ 255) (hc : c ≤ 255) (hd : d ≤ 255) (hp : p ≠ []) :
    from_str (ipv4Chars a b c d ++ '/' :: p) =
      match parse_u32 p with
      | none => .error .InvalidMaskFormat
      | some m => .ok ⟨ofOctets a b c d, m⟩ := by
  unfold from_str
  rw [splitOnce_append '/' _ _ (slash_not_mem_ipv4Chars a b c d ha hb hc hd)]
  simp only [Option.getD_some]
  rw [ipv4_from_str_ipv4Chars a b c d ha hb hc hd]
  have hpe : p.isEmpty = false := by
    cases p with
    | nil => exact absurd rfl hp
    | cons x xs => rfl
  rw [hpe]
  simp

theorem from_str_no_mask (a b c d : Nat) (ha : a ≤ 255) (hb : b ≤ 255)
    (hc : c ≤ 255) (hd : d ≤ 255) :
    from_str (ipv4Chars a b c d) = .ok ⟨ofOctets a b c d, default_mask (ofOctets a b c d)⟩ := by
  unfold from_str
  rw [splitOnce_not_mem '/' _ (slash_not_mem_ipv4Chars a b c d ha hb hc hd)]
  simp only [Option.getD_none]
  rw [ipv4_from_str_ipv4Chars a b c d ha hb hc hd]
  rfl

theorem default_mask_ofOctets (a b c d : Nat) (ha : a ≤ 255) (hb : b ≤ 255)
    (hc : c ≤ 255) (hd : d ≤ 255) :
    default_mask (ofOctets a b c d) =
      if a ≤ 127 then 8 else if a ≤ 191 then 16 else if a ≤ 223 then 24 else 24 := by
  have hfirst : ofOctets a b c d / 16777216 % 256 = a := by
    unfold ofOctets
    omega
  unfold default_mask
  rw [hfirst]

theorem ofOctets_lt (a b c d : Nat) (ha : a ≤ 255) (hb : b ≤ 255)
    (hc : c ≤ 255) (hd : d ≤ 255) : ofOctets a b c d < u32Mod := by
  unfold ofOctets u32Mod
  omega

theorem ipChars_eq_ipv4Chars (ip : Nat) :
    ipChars ip = ipv4Chars (ip / 16777216 % 256) (ip / 65536 % 256) (ip / 256 % 256) (ip % 256) :=
  rfl

theorem ofOctets_decomp (ip : Nat) (h : ip < u32Mod) :
    ofOctets (ip / 16777216 % 256) (ip / 65536 % 256) (ip / 256 % 256) (ip % 256) = ip := by
  unfold ofOctets
  unfold u32Mod at h
  omega

/-! ### Helper lemmas: the masked-address fold of aggregation -/

theorem find_common_pfx_some_inv (routes : List Route) (v : Nat)
    (h : find_common_pfx routes = some v) :
    (∀ r ∈ routes, 1 ≤ r.pfx ∧ r.pfx ≤ 32) ∧
      v = routes.foldl (fun acc q => acc &&& (q.ip &&& maskForPrefix q.pfx)) u32Max := by
  unfold find_common_pfx at h
  suffices haux : ∀ (l : List Route) (acc w : Nat),
      l.foldlM (fun acc r => (mask_to_u32 r.pfx).map (fun m => acc &&& (r.ip &&& m))) acc =
        some w →
      (∀ r ∈ l, 1 ≤ r.pfx ∧ r.pfx ≤ 32) ∧
        w = l.foldl (fun acc q => acc &&& (q.ip &&& maskForPrefix q.pfx)) acc by
    exact haux routes u32Max v h
  intro l
  induction l with
  | nil =>
    intro acc w hw
    have haw : acc = w := Option.some.inj hw
    subst haw
    exact ⟨by simp, by simp⟩
  | cons r rs ih =>
    intro acc w hw
    rw [List.foldlM_cons] at hw
    cases hm : mask_to_u32 r.pfx with
    | none =>
      rw [hm] at hw
      simp only [Option.map_none', Option.none_bind] at hw
      exact Option.noConfusion hw
    | some m =>
      rw [hm] at hw
      simp only [Option.map_some', Option.some_bind] at hw
      obtain ⟨h1, h2, h3⟩ := mask_to_u32_some_inv r.pfx m hm
      obtain ⟨hall, hval⟩ := ih (acc &&& (r.ip &&& m)) w hw
      refine ⟨?_, ?_⟩
      · intro q hq
        rcases List.mem_cons.1 hq with hq | hq
        · subst hq; exact ⟨h1, h2⟩
        · exact hall q hq
      · rw [List.foldl_cons, ← h3, hval]

theorem find_common_pfx_cons_some (routes : List Route)
    (h : ∀ r ∈ routes, 1 ≤ r.pfx ∧ r.pfx ≤ 32) :
    find_common_pfx routes =
      some (routes.foldl (fun acc q => acc &&& (q.ip &&& maskForPrefix q.pfx)) u32Max) := by
  unfold find_common_pfx
  suffices haux : ∀ (l : List Route) (acc : Nat),
      (∀ r ∈ l, 1 ≤ r.pfx ∧ r.pfx ≤ 32) →
      l.foldlM (fun acc r => (mask_to_u32 r.pfx).map (fun m => acc &&& (r.ip &&& m))) acc =
        some (l.foldl (fun acc q => acc &&& (q.ip &&& maskForPrefix q.pfx)) acc) by
    exact haux routes u32Max h
  intro l
  induction l with
  | nil => intro acc _; simp
  | cons r rs ih =>
    intro acc hall
    have hr := hall r (List.mem_cons_self r rs)
    rw [List.foldlM_cons, mask_to_u32_eq_subnet_mask, subnet_mask_eq r.pfx hr.1 hr.2]
    simp only [Option.map_some', Option.some_bind, List.foldl_cons]
    exact ih _ (fun q hq => hall q (List.mem_cons_of_mem r hq))

/-! ### Helper lemmas: aggregation -/

theorem count_common_bits_le_max (r0 : Route) (rest : List Route) :
    count_common_bits (r0 :: rest) ≤ ((r0 :: rest).map Route.pfx).foldl max 0 := by
  unfold count_common_bits
  exact Nat.min_le_right _ _

theorem foldl_max_choice (l : List Nat) :
    ∀ a : Nat, a ≤ l.foldl max a ∧ (l.foldl max a = a ∨ l.foldl max a ∈ l) := by
  induction l with
  | nil => intro a; simp
  | cons x xs ih =>
    intro a
    rw [List.foldl_cons]
    obtain ⟨hle, hch⟩ := ih (max a x)
    constructor
    · exact le_trans (le_max_left a x) hle
    · rcases hch with hch | hch
      · rcases max_choice a x with hm | hm
        · left; rw [hch, hm]
        · right; rw [hch, hm]; exact List.mem_cons_self x xs
      · right; exact List.mem_cons_of_mem x hch

theorem aggregate_ok_inv (routes : List Route) (r : Route)
    (hlen : 2 ≤ routes.length) (h : aggregate_routes routes = some (.ok r)) :
    r.pfx = count_common_bits routes ∧
      1 ≤ count_common_bits routes ∧ count_common_bits routes ≤ 32 ∧
      (∀ q ∈ routes, 1 ≤ q.pfx ∧ q.pfx ≤ 32) ∧
      r.ip = (routes.foldl (fun acc q => acc &&& (q.ip &&& maskForPrefix q.pfx)) u32Max) &&&
        maskForPrefix (count_common_bits routes) := by
  match routes, hlen with
  | a :: b :: rest, _ =>
    rw [show aggregate_routes (a :: b :: rest) =
        (match find_common_pfx (a :: b :: rest) with
        | none => none
        | some fcp =>
          match mask_to_u32 (count_common_bits (a :: b :: rest)) with
          | none => none
          | some nm =>
            some (.ok ⟨fcp &&& nm, count_common_bits (a :: b :: rest)⟩)) from rfl] at h
    cases hf : find_common_pfx (a :: b :: rest) with
    | none => rw [hf] at h; exact absurd h (by simp)
    | some fcp =>
      rw [hf] at h
      cases hm : mask_to_u32 (count_common_bits (a :: b :: rest)) with
      | none => rw [hm] at h; exact absurd h (by simp)
      | some nm =>
        rw [hm] at h
        simp only [Option.some_inj] at h
        have hr2 : (⟨fcp &&& nm, count_common_bits (a :: b :: rest)⟩ : Route) = r := by
          injection h
        obtain ⟨hall, hfval⟩ := find_common_pfx_some_inv _ _ hf
        obtain ⟨hm1, hm2, hm3⟩ := mask_to_u32_some_inv _ _ hm
        subst hr2
        exact ⟨rfl, hm1, hm2, hall, by rw [hfval, hm3]⟩

/-! ### Helper lemmas: the mask solver -/

theorem u32Max_shiftRight (k : Nat) (hk : k ≤ 32) : u32Max >>> k = 2 ^ (32 - k) - 1 := by
  have h1 : (1 : Nat) ≤ 2 ^ k := Nat.one_le_two_pow
  have h1b : (2 : Nat) ^ k ≤ 2 ^ 32 := Nat.pow_le_pow_right (by norm_num) hk
  have h2 : 2 ^ (32 - k) * 2 ^ k = 2 ^ 32 := by
    rw [← pow_add]; congr 1; omega
  have h4 : (2 ^ (32 - k) - 1) * 2 ^ k = 2 ^ 32 - 2 ^ k := by
    rw [Nat.sub_mul, one_mul, h2]
  have h3 : u32Max = (2 ^ k - 1) + (2 ^ (32 - k) - 1) * 2 ^ k := by
    rw [h4]; unfold u32Max; norm_num; omega
  rw [Nat.shiftRight_eq_div_pow, h3, Nat.add_mul_div_right _ _ (by omega),
    Nat.div_eq_of_lt (by omega), Nat.zero_add]

theorem log2floorAux_spec (fuel : Nat) :
    ∀ n, 1 ≤ n → n < 2 ^ fuel →
      2 ^ log2floorAux fuel n ≤ n ∧ n < 2 ^ (log2floorAux fuel n + 1) := by
  induction fuel with
  | zero => intro n h1 h2; omega
  | succ fuel ih =>
    intro n h1 h2
    by_cases hle : n ≤ 1
    · have hn1 : n = 1 := by omega
      subst hn1
      unfold log2floorAux
      norm_num
    · have hstep : log2floorAux (fuel + 1) n = log2floorAux fuel (n / 2) + 1 := by
        conv_lhs => unfold log2floorAux
        rw [if_neg hle]
      have hdiv1 : 1 ≤ n / 2 := by omega
      have hdiv2 : n / 2 < 2 ^ fuel := by
        rw [Nat.div_lt_iff_lt_mul (by norm_num)]
        calc n < 2 ^ (fuel + 1) := h2
        _ = 2 ^ fuel * 2 := by ring
      obtain ⟨hlo, hhi⟩ := ih (n / 2) hdiv1 hdiv2
      rw [hstep]
      constructor
      · calc 2 ^ (log2floorAux fuel (n / 2) + 1) = 2 ^ log2floorAux fuel (n / 2) * 2 := by ring
        _ ≤ n / 2 * 2 := by omega
        _ ≤ n := by omega
      · have : n / 2 + 1 ≤ 2 ^ (log2floorAux fuel (n / 2) + 1) := hhi
        calc n < (n / 2 + 1) * 2 := by omega
        _ ≤ 2 ^ (log2floorAux fuel (n / 2) + 1) * 2 := by omega
        _ = 2 ^ (log2floorAux fuel (n / 2) + 1 + 1) := by ring

theorem log2floorAux_ge (k : Nat) :
    ∀ fuel n, k ≤ fuel → 2 ^ k ≤ n → k ≤ log2floorAux fuel n := by
  induction k with
  | zero => intro fuel n _ _; exact Nat.zero_le _
  | succ k ih =>
    intro fuel n hkf hn
    obtain ⟨fuel', rfl⟩ : ∃ f, fuel = f + 1 := ⟨fuel - 1, by omega⟩
    have h2 : ¬(n ≤ 1) := by
      have : (2 : Nat) ≤ 2 ^ (k + 1) := by
        calc (2 : Nat) = 2 ^ 1 := rfl
        _ ≤ 2 ^ (k + 1) := Nat.pow_le_pow_right (by norm_num) (by omega)
      omega
    have hstep : log2floorAux (fuel' + 1) n = log2floorAux fuel' (n / 2) + 1 := by
      conv_lhs => unfold log2floorAux
      rw [if_neg h2]
    rw [hstep]
    have hdiv : 2 ^ k ≤ n / 2 := by
      have hp : (2 : Nat) ^ (k + 1) = 2 ^ k * 2 := by ring
      omega
    have := ih fuel' (n / 2) (by omega) hdiv
    omega

theorem clog2_pin (f n : Nat) (h1 : 2 ^ f < n) (h2 : n ≤ 2 ^ (f + 1)) :
    Nat.clog 2 n = f + 1 := by
  have hle : Nat.clog 2 n ≤ f + 1 := (Nat.le_pow_iff_clog_le (by norm_num)).1 h2
  have hgt : f < Nat.clog 2 n := (Nat.pow_lt_iff_lt_clog (by norm_num)).1 h1
  omega

theorem next_power_of_two_spec (n : Nat) (h1 : 1 ≤ n) (h2 : n ≤ 2 ^ 31) :
    next_power_of_two n = some (2 ^ Nat.clog 2 n) := by
  by_cases hn1 : n ≤ 1
  · have : n = 1 := by omega
    subst this
    rw [Nat.clog_one_right]
    rfl
  · have hn2 : 2 ≤ n := by omega
    have hm1 : 1 ≤ n - 1 := by omega
    have hm2 : n - 1 < 2 ^ 32 := by
      have : (2 : Nat) ^ 31 < 2 ^ 32 := by norm_num
      omega
    obtain ⟨hlo, hhi⟩ := log2floorAux_spec 32 (n - 1) hm1 hm2
    set f := log2floorAux 32 (n - 1) with hf
    have hfle : f ≤ 30 := by
      by_contra hc
      have h31 : (2 : Nat) ^ 31 ≤ 2 ^ f := Nat.pow_le_pow_right (by norm_num) (by omega)
      omega
    have hlz : u32_leading_zeros (n - 1) = 31 - f := by
      unfold u32_leading_zeros
      rw [if_neg (by omega), ← hf]
    have hexp : 32 - (31 - f) = f + 1 := by omega
    have hshift : u32Max >>> (31 - f) = 2 ^ (f + 1) - 1 := by
      rw [u32Max_shiftRight (31 - f) (by omega), hexp]
    have hmne : 2 ^ (f + 1) - 1 ≠ u32Max := by
      have : (2 : Nat) ^ (f + 1) ≤ 2 ^ 31 := Nat.pow_le_pow_right (by norm_num) (by omega)
      unfold u32Max
      norm_num at this ⊢
      omega
    have hclog : Nat.clog 2 n = f + 1 := clog2_pin f n (by omega) (by omega)
    have hpos : (1 : Nat) ≤ 2 ^ (f + 1) := Nat.one_le_two_pow
    unfold next_power_of_two
    rw [hlz, hshift, if_neg hn1, if_neg hmne, hclog, Nat.sub_add_cancel hpos]

theorem next_power_of_two_none (n : Nat) (h : 2 ^ 31 < n) :
    next_power_of_two n = none := by
  have h2 : ¬(n ≤ 1) := by
    have : (2 : Nat) ≤ 2 ^ 31 := by norm_num
    omega
  have hge : 31 ≤ log2floorAux 32 (n - 1) := by
    exact log2floorAux_ge 31 32 (n - 1) (by omega) (by omega)
  have hlz : u32_leading_zeros (n - 1) = 0 := by
    unfold u32_leading_zeros
    rw [if_neg (by omega)]
    omega
  unfold next_power_of_two
  rw [if_neg h2, hlz]
  have : u32Max >>> 0 = u32Max := rfl
  rw [this, if_pos rfl]

theorem u32_trailing_zeros_aux_pow (k : Nat) :
    ∀ fuel, k < fuel → u32_trailing_zeros_aux fuel (2 ^ k) = k := by
  induction k with
  | zero =>
    intro fuel hf
    obtain ⟨f, rfl⟩ : ∃ f, fuel = f + 1 := ⟨fuel - 1, by omega⟩
    rfl
  | succ k ih =>
    intro fuel hf
    obtain ⟨f, rfl⟩ : ∃ f, fuel = f + 1 := ⟨fuel - 1, by omega⟩
    have hmod : 2 ^ (k + 1) % 2 = 0 := by
      rw [pow_succ, Nat.mul_mod_left]
    have hdiv : 2 ^ (k + 1) / 2 = 2 ^ k := by
      rw [pow_succ, Nat.mul_div_cancel _ (by norm_num)]
    have hstep : u32_trailing_zeros_aux (f + 1) (2 ^ (k + 1)) =
        u32_trailing_zeros_aux f (2 ^ (k + 1) / 2) + 1 := by
      conv_lhs => unfold u32_trailing_zeros_aux
      rw [if_neg (by omega)]
    rw [hstep, hdiv, ih f (by omega)]

theorem u32_trailing_zeros_pow (k : Nat) (hk : k ≤ 31) :
    u32_trailing_zeros (2 ^ k) = k := by
  have hne : (2 : Nat) ^ k ≠ 0 := by positivity
  unfold u32_trailing_zeros
  rw [if_neg hne]
  exact u32_trailing_zeros_aux_pow k 32 (by omega)

theorem determine_subnet_mask_spec (m rs rh : Nat) (hm : m ≤ 32) (hrs1 : 1 ≤ rs)
    (hrs2 : rs ≤ 2 ^ 31) (hrh1 : 1 ≤ rh) (hrh2 : rh + 2 ≤ 2 ^ 31) :
    determine_subnet_mask m rs rh =
      if m < Nat.clog 2 (rh + 2) ∨ 32 - m < Nat.clog 2 rs then
        some (.error .InsufficientBits)
      else some (.ok (maskForPrefix (m + Nat.clog 2 rs))) := by
  have h0 : ¬(rh = 0 ∨ rs = 0) := by omega
  have h1 : ¬(u32Mod ≤ rh + 2) := by
    unfold u32Mod
    have : (2 : Nat) ^ 31 = 2147483648 := by norm_num
    omega
  have hble : Nat.clog 2 (rh + 2) ≤ 31 := (Nat.le_pow_iff_clog_le (by norm_num)).1 hrh2
  have hsle : Nat.clog 2 rs ≤ 31 := (Nat.le_pow_iff_clog_le (by norm_num)).1 hrs2
  have hb2 : 2 ≤ Nat.clog 2 (rh + 2) := by
    have := (Nat.pow_lt_iff_lt_clog (show (1 : Nat) < 2 by norm_num)
      (x := rh + 2) (y := 1)).1 (by norm_num; omega)
    omega
  unfold determine_subnet_mask
  rw [if_neg h0, if_neg h1]
  simp only [next_power_of_two_spec (rh + 2) (by omega) hrh2,
    next_power_of_two_spec rs hrs1 hrs2,
    u32_trailing_zeros_pow (Nat.clog 2 (rh + 2)) hble,
    u32_trailing_zeros_pow (Nat.clog 2 rs) hsle]
  by_cases hc1 : m < Nat.clog 2 (rh + 2)
  · rw [if_pos hc1, if_pos (Or.inl hc1)]
  · rw [if_neg hc1, if_neg (by omega)]
    by_cases hc2 : 32 - m < Nat.clog 2 rs
    · rw [if_pos hc2, if_pos (Or.inr hc2)]
    · rw [if_neg hc2, if_neg (by tauto)]
      simp only [mask_to_u32_eq_subnet_mask,
        subnet_mask_eq (m + Nat.clog 2 rs) (by omega) (by omega)]

theorem determine_subnet_mask_ok_inv (m rs rh v : Nat)
    (h : determine_subnet_mask m rs rh = some (.ok v)) :
    m ≤ 32 ∧ 1 ≤ rs ∧ rs ≤ 2 ^ 31 ∧ 1 ≤ rh ∧ rh + 2 ≤ 2 ^ 31 ∧
      ¬(m < Nat.clog 2 (rh + 2) ∨ 32 - m < Nat.clog 2 rs) ∧
      v = maskForPrefix (m + Nat.clog 2 rs) := by
  have h0 : ¬(rh = 0 ∨ rs = 0) := by
    intro hc
    unfold determine_subnet_mask at h
    rw [if_pos hc] at h
    exact absurd h (by simp)
  have hrh2 : rh + 2 ≤ 2 ^ 31 := by
    by_contra hc
    unfold determine_subnet_mask at h
    rw [if_neg h0] at h
    by_cases hu : u32Mod ≤ rh + 2
    · rw [if_pos hu] at h
      exact Option.noConfusion h
    · rw [if_neg hu] at h
      simp only [next_power_of_two_none (rh + 2) (by omega)] at h
      exact Option.noConfusion h
  have hu : ¬(u32Mod ≤ rh + 2) := by
    unfold u32Mod
    have : (2 : Nat) ^ 31 = 2147483648 := by norm_num
    omega
  have hrs2 : rs ≤ 2 ^ 31 := by
    by_contra hc
    unfold determine_subnet_mask at h
    rw [if_neg h0, if_neg hu] at h
    simp only [next_power_of_two_spec (rh + 2) (by omega) hrh2,
      next_power_of_two_none rs (by omega)] at h
    exact Option.noConfusion h
  have hmle : m ≤ 32 := by
    by_contra hc
    unfold determine_subnet_mask at h
    rw [if_neg h0, if_neg hu] at h
    simp only [next_power_of_two_spec (rh + 2) (by omega) hrh2,
      next_power_of_two_spec rs (by omega) hrs2] at h
    by_cases hg : m < u32_trailing_zeros (2 ^ Nat.clog 2 (rh + 2))
    · rw [if_pos hg] at h
      exact absurd h (by simp)
    · rw [if_neg hg, if_pos (by omega)] at h
      exact Option.noConfusion h
  rw [determine_subnet_mask_spec m rs rh hmle (by omega) hrs2 (by omega) hrh2] at h
  by_cases hcond : m < Nat.clog 2 (rh + 2) ∨ 32 - m < Nat.clog 2 rs
  · rw [if_pos hcond] at h
    exact absurd h (by simp)
  · rw [if_neg hcond] at h
    have hv : Except.ok (maskForPrefix (m + Nat.clog 2 rs)) = (Except.ok v : Except RouteError Nat) :=
      Option.some.inj h
    exact ⟨hmle, by omega, hrs2, by omega, hrh2, hcond, (Except.ok.inj hv).symm⟩

/-! ### Claim theorems -/

/-- C2: `subnet_mask` / `mask_to_u32` is claimed to return the value with
exactly the top `p` bits set for every `p` in `[0, 32]`, with `p = 0`
giving all-zero.  The code computes `!0 << (32 - p)`: at `p = 0` the
shift amount is 32, which overflows in a debug build (modelled as `none`)
instead of producing the all-zero value, so the claim fails at `p = 0`;
for every `p` in `[1, 32]` the function does return the top-`p`-bits
value `maskForPrefix p`, and `popcount (maskForPrefix p) = p` holds for
every `p` in `[0, 32]`. -/
theorem claim_C2_mask_for_prefix :
    subnet_mask 0 = none ∧ mask_to_u32 0 = none ∧
      (∀ p : Fin 32, subnet_mask (p.val + 1) = some (maskForPrefix (p.val + 1)) ∧
        mask_to_u32 (p.val + 1) = some (maskForPrefix (p.val + 1))) ∧
      (∀ p : Fin 33, popcount (maskForPrefix p.val) = p.val) := by
  refine ⟨rfl, rfl, ?_, ?_⟩
  · intro p
    have h := subnet_mask_eq (p.val + 1) (by omega) (by omega)
    exact ⟨h, by rw [mask_to_u32_eq_subnet_mask]; exact h⟩
  · decide

/-- C3 counterexample: the claim says every prefix above 32 is rejected
with `InvalidMaskFormat`, but the parser has no range check: the string
"10.0.0.0/33" parses successfully to the route 10.0.0.0 with prefix 33
(10.0.0.0 is the `u32` value 167772160). -/
theorem claim_C3_counterexample :
    from_str (ipv4Chars 10 0 0 0 ++ '/' :: natToChars 33) = .ok ⟨167772160, 33⟩ ∧
      from_str (ipv4Chars 10 0 0 0 ++ '/' :: natToChars 33) ≠
        .error .InvalidMaskFormat := by
  exact ⟨by decide, by decide⟩

/-- C3 amended: for every address part of four valid octets and every
non-empty mask part `P`, parsing returns `InvalidMaskFormat` exactly when
`P` fails to parse as a `u32` (non-numeric or at least `2^32`); every
numeric `P` below `2^32` — including values above 32 such as 33 — is
accepted and becomes the route's prefix verbatim. -/
theorem claim_C3_mask_errors (a b c d : Nat) (p : List Char) (ha : a ≤ 255)
    (hb : b ≤ 255) (hc : c ≤ 255) (hd : d ≤ 255) (hp : p ≠ []) :
    from_str (ipv4Chars a b c d ++ '/' :: p) =
      match parse_u32 p with
      | none => .error .InvalidMaskFormat
      | some m => .ok ⟨ofOctets a b c d, m⟩ :=
  from_str_with_mask a b c d p ha hb hc hd hp

/-- C3 witness: the amended claim applied at 10.0.0.0 with mask part
"33". -/
theorem claim_C3_mask_errors_witness :
    (10 ≤ 255 ∧ 0 ≤ 255 ∧ (['3', '3'] : List Char) ≠ []) ∧
      from_str (ipv4Chars 10 0 0 0 ++ '/' :: ['3', '3']) =
        match parse_u32 ['3', '3'] with
        | none => .error .InvalidMaskFormat
        | some m => .ok ⟨ofOctets 10 0 0 0, m⟩ :=
  ⟨⟨by decide, by decide, by decide⟩,
    claim_C3_mask_errors 10 0 0 0 ['3', '3'] (by decide) (by decide) (by decide)
      (by decide) (by decide)⟩

/-- C7: when the input has no slash part and the address parses as four
valid octets, the resulting prefix is the classful default chosen from
the first octet: 0-127 gives 8, 128-191 gives 16, 192-223 gives 24, and
224-255 also gives 24 (class D/E deliberately fall back to the class-C
default). -/
theorem claim_C7_classful_default (a b c d : Nat) (ha : a ≤ 255) (hb : b ≤ 255)
    (hc : c ≤ 255) (hd : d ≤ 255) :
    from_str (ipv4Chars a b c d) =
      .ok ⟨ofOctets a b c d,
        if a ≤ 127 then 8 else if a ≤ 191 then 16 else if a ≤ 223 then 24 else 24⟩ := by
  rw [from_str_no_mask a b c d ha hb hc hd, default_mask_ofOctets a b c d ha hb hc hd]

/-- C7 witness: the claim applied at 224.0.0.1 (class D), whose default
prefix is 24. -/
theorem claim_C7_classful_default_witness :
    ((224 : Nat) ≤ 255 ∧ (1 : Nat) ≤ 255) ∧
      from_str (ipv4Chars 224 0 0 1) =
        .ok ⟨ofOctets 224 0 0 1,
          if (224 : Nat) ≤ 127 then 8 else if (224 : Nat) ≤ 191 then 16
          else if (224 : Nat) ≤ 223 then 24 else 24⟩ :=
  ⟨⟨by decide, by decide⟩,
    claim_C7_classful_default 224 0 0 1 (by decide) (by decide) (by decide) (by decide)⟩

/-- C8: aggregating the empty list fails with `EmptyNetworkList`;
aggregating a single-element list returns that element unchanged with no
re-masking, for every network — including one with host bits set past
the prefix boundary, such as 192.168.100.7/24 (`u32` value
3232261127). -/
theorem claim_C8_identity_and_empty :
    aggregate_routes [] = some (.error .EmptyNetworkList) ∧
      (∀ N : Route, aggregate_routes [N] = some (.ok N)) ∧
      aggregate_routes [⟨3232261127, 24⟩] = some (.ok ⟨3232261127, 24⟩) :=
  ⟨rfl, fun _ => rfl, rfl⟩

/-- C9 counterexample: the claim says `available_hosts` reports 0 usable
hosts at prefix 32, but the code computes `2u32.pow(0) - 2 = 1 - 2`,
which underflows `u32` (a panic in debug builds, modelled as `none`;
release builds wrap to 4294967295) — it does not report 0. -/
theorem claim_C9_counterexample :
    available_hosts ⟨0, 32⟩ = none ∧ available_hosts ⟨0, 32⟩ ≠ some 0 :=
  ⟨by decide, by decide⟩

/-- C9 amended: `available_hosts` reports 0 usable hosts at prefix 31 and
`2^(32-p) - 2` for every prefix `p` in `[1, 30]` (254 for a /24), but at
prefix 32 the `u32` subtraction `1 - 2` underflows (debug-build panic,
modelled as `none`) instead of reporting 0. -/
theorem claim_C9_available_hosts (ip p : Nat) (h1 : 1 ≤ p) (h2 : p ≤ 30) :
    available_hosts ⟨ip, p⟩ = some (2 ^ (32 - p) - 2) ∧
      available_hosts ⟨ip, 31⟩ = some 0 ∧
      available_hosts ⟨ip, 32⟩ = none := by
  have hpow_le : 2 ^ (32 - p) ≤ 2 ^ 31 := Nat.pow_le_pow_right (by norm_num) (by omega)
  have hpow_lt : ¬(u32Mod ≤ 2 ^ (32 - p)) := by
    unfold u32Mod
    have h31 : (2 : Nat) ^ 31 = 2147483648 := by norm_num
    omega
  have hpow_ge : ¬(2 ^ (32 - p) < 2) := by
    have : (2 : Nat) ^ 1 ≤ 2 ^ (32 - p) := Nat.pow_le_pow_right (by norm_num) (by omega)
    norm_num at this
    omega
  refine ⟨?_, ?_, ?_⟩
  · show (if 32 < p then none
      else if u32Mod ≤ 2 ^ (32 - p) then none
      else if 2 ^ (32 - p) < 2 then none
      else some (2 ^ (32 - p) - 2)) = some (2 ^ (32 - p) - 2)
    rw [if_neg (by omega), if_neg hpow_lt, if_neg hpow_ge]
  · show (if 32 < 31 then none
      else if u32Mod ≤ 2 ^ (32 - 31) then none
      else if 2 ^ (32 - 31) < 2 then none
      else some (2 ^ (32 - 31) - 2)) = some 0
    norm_num [u32Mod]
  · show (if 32 < 32 then none
      else if u32Mod ≤ 2 ^ (32 - 32) then none
      else if 2 ^ (32 - 32) < 2 then none
      else some (2 ^ (32 - 32) - 2)) = none
    norm_num [u32Mod]

/-- C9 witness: the amended claim applied at prefix 24, giving 254 usable
hosts, together with the prefix-31 and prefix-32 boundary behavior. -/
theorem claim_C9_available_hosts_witness :
    ((1 : Nat) ≤ 24 ∧ (24 : Nat) ≤ 30) ∧
      (available_hosts ⟨0, 24⟩ = some (2 ^ (32 - 24) - 2) ∧
        available_hosts ⟨0, 31⟩ = some 0 ∧
        available_hosts ⟨0, 32⟩ = none) :=
  ⟨⟨by decide, by decide⟩, claim_C9_available_hosts 0 24 (by decide) (by decide)⟩

/-- C10: formatting any route as "ip/prefix" with `Display` and parsing
the result back with `from_str` returns `Ok` of an equal route, for every
address and every prefix value the parser can produce (that is, any `u32`
values) — in particular host bits below the prefix boundary survive the
round trip verbatim. -/
theorem claim_C10_display_roundtrip (r : Route) (hip : r.ip < u32Mod)
    (hpfx : r.pfx < u32Mod) : from_str (route_display r) = .ok r := by
  obtain ⟨ip, pfx⟩ := r
  show from_str (ipChars ip ++ '/' :: natToChars pfx) = .ok ⟨ip, pfx⟩
  have hip' : ip < u32Mod := hip
  have hpfx' : pfx < u32Mod := hpfx
  have hpne : natToChars pfx ≠ [] := by
    refine (natToChars_spec pfx ?_).1
    unfold u32Mod at hpfx'
    omega
  rw [ipChars_eq_ipv4Chars]
  rw [from_str_with_mask _ _ _ _ (natToChars pfx) (by omega) (by omega) (by omega)
    (by omega) hpne]
  simp only [parse_u32_natToChars pfx hpfx']
  rw [ofOctets_decomp ip hip']

/-- C10 witness: the round trip at 192.168.100.7/27 (host bits set past
the /27 boundary). -/
theorem claim_C10_display_roundtrip_witness :
    ((⟨3232261127, 27⟩ : Route).ip < u32Mod ∧ (⟨3232261127, 27⟩ : Route).pfx < u32Mod) ∧
      from_str (route_display ⟨3232261127, 27⟩) = .ok ⟨3232261127, 27⟩ :=
  ⟨⟨by decide, by decide⟩,
    claim_C10_display_roundtrip ⟨3232261127, 27⟩ (by decide) (by decide)⟩

/-- C1: for the input list [192.168.100.0/27, 192.168.100.32/27,
192.168.100.64/26] aggregation succeeds and returns exactly
192.168.100.0/25 (`u32` addresses 3232261120, 3232261152, 3232261184).
In general, whenever aggregation of two or more networks returns a
result, that result is the bitwise AND of all masked input addresses
(each address AND `maskForPrefix` of its own prefix), re-masked with
`maskForPrefix` of the computed common-prefix length, paired with that
length.  However, the claim's universal form fails on the code: when the
computed common-bit count is 0 (for example for the two networks
64.0.0.0/8 and 192.0.0.0/8, `u32` addresses 1073741824 and 3221225472),
`mask_to_u32` computes `!0 << 32`, a debug-build panic (modelled as
`none`), instead of returning the network 0.0.0.0/0 demanded by the
spec's algorithm. -/
theorem claim_C1_aggregate_formula :
    aggregate_routes [⟨3232261120, 27⟩, ⟨3232261152, 27⟩, ⟨3232261184, 26⟩] =
      some (.ok ⟨3232261120, 25⟩) ∧
    aggregate_routes [⟨1073741824, 8⟩, ⟨3221225472, 8⟩] = none ∧
    (∀ (routes : List Route) (r : Route), 2 ≤ routes.length →
      aggregate_routes routes = some (.ok r) →
      r.pfx = count_common_bits routes ∧
        r.ip = (routes.foldl (fun acc q => acc &&& (q.ip &&& maskForPrefix q.pfx))
          u32Max) &&& maskForPrefix (count_common_bits routes)) := by
  refine ⟨by decide, by decide, ?_⟩
  intro routes r hlen h
  obtain ⟨h1, _, _, _, h5⟩ := aggregate_ok_inv routes r hlen h
  exact ⟨h1, h5⟩

/-- C1 witness: the general formula applied to the concrete three-network
list of the claim. -/
theorem claim_C1_aggregate_formula_witness :
    (2 ≤ ([⟨3232261120, 27⟩, ⟨3232261152, 27⟩, ⟨3232261184, 26⟩] : List Route).length ∧
      aggregate_routes [⟨3232261120, 27⟩, ⟨3232261152, 27⟩, ⟨3232261184, 26⟩] =
        some (.ok ⟨3232261120, 25⟩)) ∧
      ((⟨3232261120, 25⟩ : Route).pfx =
          count_common_bits [⟨3232261120, 27⟩, ⟨3232261152, 27⟩, ⟨3232261184, 26⟩] ∧
        (⟨3232261120, 25⟩ : Route).ip =
          (([⟨3232261120, 27⟩, ⟨3232261152, 27⟩, ⟨3232261184, 26⟩] : List Route).foldl
            (fun acc q => acc &&& (q.ip &&& maskForPrefix q.pfx)) u32Max) &&&
            maskForPrefix
              (count_common_bits [⟨3232261120, 27⟩, ⟨3232261152, 27⟩, ⟨3232261184, 26⟩])) :=
  ⟨⟨by decide, by decide⟩,
    claim_C1_aggregate_formula.2.2
      [⟨3232261120, 27⟩, ⟨3232261152, 27⟩, ⟨3232261184, 26⟩]
      ⟨3232261120, 25⟩ (by decide) (by decide)⟩

/-- C4: whenever `determine_subnet_mask` succeeds, the returned netmask
value is `maskForPrefix (basePrefix + subnetBits)` where `subnetBits` is
the ceiling base-2 logarithm of the required subnet count (the
next-power-of-two-then-bit-position computation); in particular
`determine_subnet_mask 16 320 90` returns the `u32` value 4294967168,
which renders as the dotted address 255.255.255.128 (new prefix 25). -/
theorem claim_C4_solver_success :
    (determine_subnet_mask 16 320 90 = some (.ok 4294967168) ∧
      ipChars 4294967168 = ipv4Chars 255 255 255 128) ∧
    (∀ m rs rh v, determine_subnet_mask m rs rh = some (.ok v) →
      v = maskForPrefix (m + Nat.clog 2 rs)) := by
  refine ⟨⟨by decide, by decide⟩, ?_⟩
  intro m rs rh v h
  exact (determine_subnet_mask_ok_inv m rs rh v h).2.2.2.2.2.2

/-- C4 witness: the success-value formula applied at
`determine_subnet_mask 16 320 90`. -/
theorem claim_C4_solver_success_witness :
    determine_subnet_mask 16 320 90 = some (.ok 4294967168) ∧
      (4294967168 : Nat) = maskForPrefix (16 + Nat.clog 2 320) :=
  ⟨by decide, claim_C4_solver_success.2 16 320 90 4294967168 (by decide)⟩

/-- C5 counterexample: the claim says `determine_subnet_mask` returns
`InsufficientBits` whenever `basePrefix < hostBits`, with `hostBits` the
ceiling base-2 logarithm of `requiredHosts + 2`.  At basePrefix 16,
requiredSubnets 1, requiredHosts `2^31 - 1 = 2147483647` the claim's
condition holds (`hostBits = clog2 (2^31 + 1) = 32 > 16`), but the code
panics instead: `next_power_of_two` of `2^31 + 1` overflows `u32`
(modelled as `none`), so no error value is ever returned. -/
theorem claim_C5_counterexample :
    determine_subnet_mask 16 1 2147483647 = none ∧
      16 < Nat.clog 2 (2147483647 + 2) := by
  constructor
  · decide
  · have h : Nat.clog 2 (2147483647 + 2) = 32 :=
      clog2_pin 31 (2147483647 + 2) (by norm_num) (by norm_num)
    omega

/-- C5 amended: `determine_subnet_mask` returns `InvalidHostsOrSubnets`
if and only if a required count is 0; and — provided `basePrefix ≤ 32`,
`requiredSubnets ≤ 2^31` and `requiredHosts + 2 ≤ 2^31`, so that the
next-power-of-two computations do not overflow `u32` — it returns
`InsufficientBits` exactly when `basePrefix < hostBits` or
`subnetBits > 32 - basePrefix` (with `hostBits = clog2 (requiredHosts + 2)`
and `subnetBits = clog2 requiredSubnets`), and succeeds in every
remaining case.  Outside those bounds the computation overflows and
panics in a debug build instead of returning an error. -/
theorem claim_C5_solver_errors (m rs rh : Nat) (hm : m ≤ 32) (hrs2 : rs ≤ 2 ^ 31)
    (hrh2 : rh + 2 ≤ 2 ^ 31) :
    (determine_subnet_mask m rs rh = some (.error .InvalidHostsOrSubnets) ↔
      (rs = 0 ∨ rh = 0)) ∧
    (1 ≤ rs → 1 ≤ rh →
      ((determine_subnet_mask m rs rh = some (.error .InsufficientBits) ↔
          (m < Nat.clog 2 (rh + 2) ∨ 32 - m < Nat.clog 2 rs)) ∧
        (¬(m < Nat.clog 2 (rh + 2) ∨ 32 - m < Nat.clog 2 rs) →
          determine_subnet_mask m rs rh =
            some (.ok (maskForPrefix (m + Nat.clog 2 rs)))))) := by
  constructor
  · constructor
    · intro h
      by_contra hc
      push_neg at hc
      rw [determine_subnet_mask_spec m rs rh hm (by omega) hrs2 (by omega) hrh2] at h
      by_cases hcond : m < Nat.clog 2 (rh + 2) ∨ 32 - m < Nat.clog 2 rs
      · rw [if_pos hcond] at h
        exact absurd h (by simp)
      · rw [if_neg hcond] at h
        exact absurd h (by simp)
    · intro hc
      unfold determine_subnet_mask
      rw [if_pos (by tauto)]
  · intro hrs1 hrh1
    rw [determine_subnet_mask_spec m rs rh hm hrs1 hrs2 hrh1 hrh2]
    constructor
    · by_cases hcond : m < Nat.clog 2 (rh + 2) ∨ 32 - m < Nat.clog 2 rs
      · rw [if_pos hcond]
        simp [hcond]
      · rw [if_neg hcond]
        simp [hcond]
    · intro hcond
      rw [if_neg hcond]

/-- C5 witness: the amended claim applied at basePrefix 16,
requiredSubnets 320, requiredHosts 90 (all bounds hold there). -/
theorem claim_C5_solver_errors_witness :
    ((16 : Nat) ≤ 32 ∧ (320 : Nat) ≤ 2 ^ 31 ∧ (90 : Nat) + 2 ≤ 2 ^ 31) ∧
      ((determine_subnet_mask 16 320 90 = some (.error .InvalidHostsOrSubnets) ↔
          ((320 : Nat) = 0 ∨ (90 : Nat) = 0)) ∧
        (1 ≤ (320 : Nat) → 1 ≤ (90 : Nat) →
          ((determine_subnet_mask 16 320 90 = some (.error .InsufficientBits) ↔
              (16 < Nat.clog 2 (90 + 2) ∨ 32 - 16 < Nat.clog 2 320)) ∧
            (¬(16 < Nat.clog 2 (90 + 2) ∨ 32 - 16 < Nat.clog 2 320) →
              determine_subnet_mask 16 320 90 =
                some (.ok (maskForPrefix (16 + Nat.clog 2 320))))))) :=
  ⟨⟨by decide, by norm_num, by norm_num⟩,
    claim_C5_solver_errors 16 320 90 (by decide) (by norm_num) (by norm_num)⟩

/-- C6: for every list of two or more networks on which aggregation
returns a result, the result's prefix length is the clamped common-bit
count and is no greater than the prefix length of some input network —
in particular no greater than the maximum input prefix length. -/
theorem claim_C6_clamped_length (routes : List Route) (r : Route)
    (hlen : 2 ≤ routes.length) (h : aggregate_routes routes = some (.ok r)) :
    r.pfx = count_common_bits routes ∧ ∃ q ∈ routes, r.pfx ≤ q.pfx := by
  obtain ⟨h1, _, _, _, _⟩ := aggregate_ok_inv routes r hlen h
  refine ⟨h1, ?_⟩
  obtain ⟨a, rest, rfl⟩ : ∃ a rest, routes = a :: rest := by
    cases routes with
    | nil => simp at hlen
    | cons a rest => exact ⟨a, rest, rfl⟩
  have hle : count_common_bits (a :: rest) ≤ ((a :: rest).map Route.pfx).foldl max 0 :=
    count_common_bits_le_max a rest
  obtain ⟨h0le, hch⟩ := foldl_max_choice ((a :: rest).map Route.pfx) 0
  rcases hch with hch | hch
  · exact ⟨a, List.mem_cons_self a rest, by omega⟩
  · obtain ⟨q, hqmem, hqval⟩ := List.mem_map.1 hch
    exact ⟨q, hqmem, by rw [h1]; omega⟩

/-- C6 witness: the clamping property at the concrete three-network list,
whose aggregate 192.168.100.0/25 has prefix 25 ≤ 27. -/
theorem claim_C6_clamped_length_witness :
    (2 ≤ ([⟨3232261120, 27⟩, ⟨3232261152, 27⟩, ⟨3232261184, 26⟩] : List Route).length ∧
      aggregate_routes [⟨3232261120, 27⟩, ⟨3232261152, 27⟩, ⟨3232261184, 26⟩] =
        some (.ok ⟨3232261120, 25⟩)) ∧
      ((⟨3232261120, 25⟩ : Route).pfx =
          count_common_bits [⟨3232261120, 27⟩, ⟨3232261152, 27⟩, ⟨3232261184, 26⟩] ∧
        ∃ q ∈ ([⟨3232261120, 27⟩, ⟨3232261152, 27⟩, ⟨3232261184, 26⟩] : List Route),
          (⟨3232261120, 25⟩ : Route).pfx ≤ q.pfx) :=
  ⟨⟨by decide, by decide⟩,
    claim_C6_clamped_length [⟨3232261120, 27⟩, ⟨3232261152, 27⟩, ⟨3232261184, 26⟩]
      ⟨3232261120, 25⟩ (by decide) (by decide)⟩

end Subnetcalc
